import Mathlib

/-!
Verification of the keyword-ranking pipeline of a Naver-blog analysis tool.

The TypeScript source is embedded shallowly:
* strings are modelled as `List Char` (every character involved is a BMP
  code point, so JS UTF-16 code-unit counting and Lean character counting
  agree on lengths, slices and suffix tests);
* the paginated search API consumed by the rank prober is modelled as an
  oracle `List Char → Nat → Except (List Char) (List SearchItem)` mapping a
  query keyword and a start offset to either a page of items or an error
  message (a thrown axios error, already formatted);
* the sequence of `getBlogRank` calls made by the orchestrator is abstracted as an
  oracle `Nat → Option Nat` indexed by call order (call 0 is the title
  probe, call `i + 1` is the probe of the `i`-th pool keyword);
* the host `Number` string coercion used by `parseVolume` is likewise a
  host facility and is abstracted as a string-to-number oracle over a JS
  number domain (NaN, the two infinities, finite values carried as exact
  rationals);
* JS `Array.prototype.sort`, which ECMAScript requires to be stable, is
  modelled by `List.insertionSort`, which inserts earlier elements in
  front of later ones exactly when the comparison relation holds, i.e. the
  (unique) stable sort for the comparator.
-/

/-- Characters matched by the hashtag regex class `[가-힣a-zA-Z0-9_]`. -/
def isHashtagChar (c : Char) : Bool :=
  ('가' ≤ c && c ≤ '힣') || ('a' ≤ c && c ≤ 'z') || ('A' ≤ c && c ≤ 'Z') ||
    ('0' ≤ c && c ≤ '9') || c = '_'

/-- Hangul syllable block, the regex class `[가-힣]`. -/
def isHangul (c : Char) : Bool :=
  '가' ≤ c && c ≤ '힣'

/-- Latin letters and digits. -/
def isAlnumLatin (c : Char) : Bool :=
  ('a' ≤ c && c ≤ 'z') || ('A' ≤ c && c ≤ 'Z') || ('0' ≤ c && c ≤ '9')

/-- Whitespace, the regex class `\s` (restricted to its ASCII members, the
only ones the analysed text processing can produce or consume). -/
def isWsChar (c : Char) : Bool :=
  c = ' ' || c = '\t' || c = '\n' || c = '\r' || c = Char.ofNat 11 || c = Char.ofNat 12

/-- First-occurrence deduplication with an accumulator of already seen
elements; `dedupFirst` below models the JS idiom spreading a `Set`, which
iterates in insertion order keeping the first occurrence of each element. -/
def dedupAux [DecidableEq α] (seen : List α) : List α → List α
  | [] => []
  | x :: xs => if x ∈ seen then dedupAux seen xs else x :: dedupAux (x :: seen) xs

/-- JS `[...new Set(l)]`: duplicates removed, first occurrence kept. -/
def dedupFirst [DecidableEq α] (l : List α) : List α :=
  dedupAux [] l

/-- JS string replacement of `c` by the empty string: removes the first occurrence of `c`. -/
def removeFirst [DecidableEq α] (c : α) : List α → List α
  | [] => []
  | x :: xs => if x = c then xs else x :: removeFirst c xs

/-- Scanner for the global regex `#([가-힣a-zA-Z0-9_]+)`, producing the full
matches (leading `#` included) in left-to-right order.  The state carries the
reversed run of tag characters collected since the last unconsumed `#`, or
`none` when no `#` is pending. -/
def hashtagScanAux (cur : Option (List Char)) : List Char → List (List Char)
  | [] =>
    match cur with
    | some acc => if acc.isEmpty then [] else ['#' :: acc.reverse]
    | none => []
  | c :: rest =>
    match cur with
    | some acc =>
      if isHashtagChar c then hashtagScanAux (some (c :: acc)) rest
      else
        (if acc.isEmpty then [] else ['#' :: acc.reverse]) ++
          (if c = '#' then hashtagScanAux (some []) rest else hashtagScanAux none rest)
    | none => if c = '#' then hashtagScanAux (some []) rest else hashtagScanAux none rest

/-- `content.match(/#([가-힣a-zA-Z0-9_]+)/g) ?? []`. -/
def hashtagMatches (content : List Char) : List (List Char) :=
  hashtagScanAux none content

/-- Source `extractHashtags`: collect the regex matches, strip the leading
marker of each (JS `replace('#', '')` removes the first occurrence), and
deduplicate through a `Set`, keeping first occurrences in scan order. -/
def extractHashtags (content : List Char) : List (List Char) :=
  dedupFirst ((hashtagMatches content).map (removeFirst '#'))

/-- Source `STOPWORDS` set. -/
def STOPWORDS : List (List Char) :=
  ["있습니다", "합니다", "하는", "있는", "이런", "그런", "저런",
   "때문", "이후", "이전", "통해", "위해", "대한", "관련", "이번",
   "오늘", "내일", "어제", "하지만", "그리고", "또한", "따라",
   "정도", "경우", "부분", "내용", "같은", "다른", "모든"].map String.toList

/-- Source `PARTICLES` list, in source order (two-character particles first). -/
def PARTICLES : List (List Char) :=
  ["에서", "으로", "부터", "까지", "보다", "처럼", "하고",
   "은", "는", "이", "가", "을", "를", "의", "에", "와", "과", "도", "만", "로",
   "나"].map String.toList

/-- Loop body of source `stripParticles`: try each particle in list order;
on a suffix match whose removal leaves at least two characters, strip it and
stop; otherwise keep trying later particles. -/
def stripParticlesAux (clean : List Char) : List (List Char) → List Char
  | [] => clean
  | p :: ps =>
    if p.isSuffixOf clean && decide (p.length < clean.length) then
      if 2 ≤ (clean.take (clean.length - p.length)).length then
        clean.take (clean.length - p.length)
      else stripParticlesAux clean ps
    else stripParticlesAux clean ps

/-- Source `stripParticles`. -/
def stripParticles (word : List Char) : List Char :=
  stripParticlesAux word PARTICLES

/-- Scanner for the global regex matching runs of two or more Hangul
syllables, keeping only runs of length at least two, in scan order.  The
accumulator holds the reversed current run. -/
def hangulRunsAux (acc : List Char) : List Char → List (List Char)
  | [] => if 2 ≤ acc.length then [acc.reverse] else []
  | c :: rest =>
    if isHangul c then hangulRunsAux (c :: acc) rest
    else if 2 ≤ acc.length then acc.reverse :: hangulRunsAux [] rest
    else hangulRunsAux [] rest

/-- The list of regex matches of two-or-more-character Hangul runs over the text. -/
def hangulRuns (text : List Char) : List (List Char) :=
  hangulRunsAux [] text

/-- One `freq.set(word, (freq.get(word) ?? 0) + 1)` step on a JS `Map`
modelled as an insertion-ordered association list: an existing key keeps its
position, a new key is appended. -/
def bump (w : List Char) : List (List Char × Nat) → List (List Char × Nat)
  | [] => [(w, 1)]
  | (k, n) :: rest => if k = w then (k, n + 1) :: rest else (k, n) :: bump w rest

/-- Loop of source `extractNouns` over the matched words. -/
def extractNounsAux (freq : List (List Char × Nat)) : List (List Char) → List (List Char × Nat)
  | [] => freq
  | rawWord :: ws =>
    let word := stripParticles rawWord
    if word.length < 2 ∨ word ∈ STOPWORDS then extractNounsAux freq ws
    else extractNounsAux (bump word freq) ws

/-- Source `extractNouns`: frequency map over particle-stripped Hangul runs,
in first-occurrence insertion order. -/
def extractNouns (text : List Char) : List (List Char × Nat) :=
  extractNounsAux [] (hangulRuns text)

/-- `Map.get` on the association-list model. -/
def freqOf (m : List (List Char × Nat)) (w : List Char) : Option Nat :=
  (m.find? (fun p => p.1 == w)).map (·.2)

/-- Character sanitising step of source `extractTitleNgrams`: the regex
`replace(/[^\s가-힣a-zA-Z0-9]/g, ' ')` keeps whitespace, Hangul and Latin
alphanumerics and turns every other character into a space. -/
def sanitizeChar (c : Char) : Char :=
  if isWsChar c || isHangul c || isAlnumLatin c then c else ' '

/-- `split(/\s+/)` restricted to its non-empty tokens: maximal runs of
non-whitespace characters.  (JS would additionally emit one empty leading
token when the string starts with whitespace; that token is removed by the
length filter applied right after, so it is dropped here directly.) -/
def wsTokensAux (acc : List Char) : List Char → List (List Char)
  | [] => if acc.isEmpty then [] else [acc.reverse]
  | c :: rest =>
    if isWsChar c then
      if acc.isEmpty then wsTokensAux [] rest else acc.reverse :: wsTokensAux [] rest
    else wsTokensAux (c :: acc) rest

/-- The n-gram loop of source `extractTitleNgrams`: for each index, the
bigram, then (when a third token exists) the trigram. -/
def ngramsAux : List (List Char) → List (List Char)
  | t1 :: t2 :: t3 :: rest =>
    (t1 ++ ' ' :: t2) :: (t1 ++ ' ' :: t2 ++ ' ' :: t3) :: ngramsAux (t2 :: t3 :: rest)
  | [t1, t2] => [t1 ++ ' ' :: t2]
  | _ => []

/-- Source `extractTitleNgrams`. -/
def extractTitleNgrams (title : List Char) : List (List Char) :=
  let tokens :=
    ((wsTokensAux [] (title.map sanitizeChar)).map stripParticles).filter
      (fun t => decide (2 ≤ t.length))
  ngramsAux tokens

/-- The push loop used by each priority stage of `extractSmartKeywords`:
`if (result.length >= 5) break; if (!result.includes(x)) result.push(x)`. -/
def fillFrom (result : List (List Char)) : List (List Char) → List (List Char)
  | [] => result
  | x :: xs =>
    if 5 ≤ result.length then result
    else if x ∈ result then fillFrom result xs
    else fillFrom (result ++ [x]) xs

/-- The `scored` list of source `extractSmartKeywords`: every title noun
scored `titleFreq * 3 + contentFreq`, followed by the content-only nouns of
content frequency at least two, scored at their raw content frequency. -/
def scoredNouns (title content : List Char) : List (List Char × Nat) :=
  let titleNouns := extractNouns title
  let contentNouns := extractNouns content
  (titleNouns.map fun p => (p.1, p.2 * 3 + (freqOf contentNouns p.1).getD 0)) ++
    (contentNouns.filter fun q => (freqOf titleNouns q.1).isNone && decide (2 ≤ q.2))

/-- Descending comparison on scores, `(a, b) => b[1] - a[1]`. -/
def scoreGe (a b : List Char × Nat) : Prop :=
  b.2 ≤ a.2

instance : DecidableRel scoreGe := fun a b => inferInstanceAs (Decidable (b.2 ≤ a.2))

instance : IsTotal (List Char × Nat) scoreGe :=
  ⟨fun a b => Nat.le_total b.2 a.2⟩

instance : IsTrans (List Char × Nat) scoreGe :=
  ⟨fun _ _ _ h1 h2 => Nat.le_trans h2 h1⟩

/-- `scored.sort((a, b) => b[1] - a[1])`: stable descending sort by score. -/
def sortedScoredNouns (title content : List Char) : List (List Char × Nat) :=
  List.insertionSort scoreGe (scoredNouns title content)

/-- Source `extractSmartKeywords` (cap 5): hashtags first, then scored
nouns in descending score order, then title n-grams, each stage skipping
duplicates and stopping at five entries. -/
def extractSmartKeywords (title content : List Char) (hashtags : List (List Char)) :
    List (List Char) :=
  let r1 := fillFrom [] hashtags
  if 5 ≤ r1.length then r1
  else
    let r2 := fillFrom r1 ((sortedScoredNouns title content).map Prod.fst)
    if 5 ≤ r2.length then r2
    else fillFrom r2 (extractTitleNgrams title)

/-- Source `mergeKeywordPool`: `[...new Set([...hashtags, ...smartKeywords])]`. -/
def mergeKeywordPool (hashtags smartKeywords : List (List Char)) : List (List Char) :=
  dedupFirst (hashtags ++ smartKeywords)

/-- Source `RankEntry`. -/
structure RankEntry where
  keyword : List Char
  rank : Option Nat
deriving DecidableEq, Repr

/-- The rank a comparator dereferences with `r.rank!`; only applied to
entries that passed the non-null filter. -/
def rankVal (e : RankEntry) : Nat :=
  e.rank.getD 0

/-- Ascending comparison `(a, b) => a.rank! - b.rank!`. -/
def rankLe (a b : RankEntry) : Prop :=
  rankVal a ≤ rankVal b

instance : DecidableRel rankLe := fun a b => inferInstanceAs (Decidable (rankVal a ≤ rankVal b))

instance : IsTotal RankEntry rankLe :=
  ⟨fun a b => Nat.le_total (rankVal a) (rankVal b)⟩

instance : IsTrans RankEntry rankLe :=
  ⟨fun _ _ _ h1 h2 => Nat.le_trans h1 h2⟩

/-- `ranks.filter((r) => r.rank !== null).sort((a, b) => a.rank! - b.rank!)`. -/
def rankedOf (ranks : List RankEntry) : List RankEntry :=
  List.insertionSort rankLe (ranks.filter fun r => r.rank.isSome)

/-- `ranked[0] ?? null`. -/
def bestOf (ranks : List RankEntry) : Option RankEntry :=
  (rankedOf ranks).head?

/-- `best?.keyword ?? null`. -/
def bestKeywordOf (ranks : List RankEntry) : Option (List Char) :=
  (bestOf ranks).map RankEntry.keyword

/-- `best?.rank ?? null`. -/
def bestRankOf (ranks : List RankEntry) : Option Nat :=
  (bestOf ranks).bind RankEntry.rank

/-- `ranked.filter((r) => r.keyword !== bestKeyword && r.rank! <= 10)`. -/
def otherGoodOf (ranks : List RankEntry) : List RankEntry :=
  (rankedOf ranks).filter fun r =>
    decide (some r.keyword ≠ bestKeywordOf ranks) && decide (rankVal r ≤ 10)

/-- Source `SearchVolumeEntry` payload of an `AnalysisFinalResult`. -/
structure SearchVolume where
  totalVolume : Nat
  monthlyPcQcCnt : Nat
  monthlyMobileQcCnt : Nat
deriving DecidableEq

/-- Source `AnalysisFinalResult`. -/
structure AnalysisFinalResult where
  hashtags : List (List Char)
  smartKeywords : List (List Char)
  pool : List (List Char)
  titleRank : Option Nat
  ranks : List RankEntry
  bestKeyword : Option (List Char)
  bestRank : Option Nat
  otherGoodKeywords : List RankEntry
  finalKeyword : Option (List Char)
  searchVolume : Option SearchVolume
deriving DecidableEq

/-- The sequential probing loop of Step 2 of `analyzeBlogPosts`: one
`RankEntry` per pool keyword, in pool order; the `i`-th call of the run
receives answer `i` of the oracle. -/
def probeAll (oracle : Nat → Option Nat) : List (List Char) → Nat → List RankEntry
  | [], _ => []
  | k :: ks, i => { keyword := k, rank := oracle i } :: probeAll oracle ks (i + 1)

/-- Source `analyzeBlogPosts`, with the sequence of `getBlogRank` results
abstracted as `oracle` (call 0 is the title probe, call `i + 1` the probe of
the `i`-th pool keyword) and the log sink dropped (the returned record does
not depend on it). -/
def analyzeBlogPosts (title content : List Char) (oracle : Nat → Option Nat) :
    AnalysisFinalResult :=
  let hashtags := extractHashtags content
  let smartKeywords := extractSmartKeywords title content hashtags
  let pool := mergeKeywordPool hashtags smartKeywords
  let titleRank := oracle 0
  let ranks := probeAll oracle pool 1
  { hashtags := hashtags
    smartKeywords := smartKeywords
    pool := pool
    titleRank := titleRank
    ranks := ranks
    bestKeyword := bestKeywordOf ranks
    bestRank := bestRankOf ranks
    otherGoodKeywords := otherGoodOf ranks
    finalKeyword := bestKeywordOf ranks
    searchVolume := none }

/-- One item of a search-API result page (`link` plus optional
`bloggerlink`). -/
structure SearchItem where
  link : List Char
  bloggerlink : Option (List Char)
deriving DecidableEq

/-- JS `toLowerCase`, restricted to ASCII case mapping (the URL patterns
compared are ASCII). -/
def lowerAll (s : List Char) : List Char :=
  s.map Char.toLower

/-- JS `String.includes`: `pat` occurs as a contiguous subsequence. -/
def containsPat (pat : List Char) : List Char → Bool
  | [] => pat.isEmpty
  | c :: rest => pat.isPrefixOf (c :: rest) || containsPat pat rest

/-- The inner item loop of source `getBlogRank`: increment the running rank
for each item; return it at the first item whose `link` concatenated with
its `bloggerlink` contains the (lowercased) pattern; otherwise report the
final counter. -/
def scanItems (pat : List Char) : Nat → List SearchItem → Option Nat × Nat
  | rank, [] => (none, rank)
  | rank, item :: rest =>
    if containsPat pat (lowerAll (item.link ++ item.bloggerlink.getD [])) then
      (some (rank + 1), rank + 1)
    else scanItems pat (rank + 1) rest

/-- The lowercased url pattern, blog.naver.com/ followed by the blog id. -/
def searchPat (blogId : List Char) : List Char :=
  lowerAll ("blog.naver.com/".toList ++ blogId)

/-- The search API as seen through one keyword: start offset to page of
items, or a thrown error (already formatted to its message). -/
abbrev SearchApi := List Char → Nat → Except (List Char) (List SearchItem)

/-- The `try` body of source `getBlogRank`: the page loop
`for (start = 1; start <= 100; start += 10)`.  The loop performs at most ten
iterations (starts 1, 11, …, 91), so the recursion is driven by a
page-count fuel of ten alongside the literal `start <= MAX_RESULTS` guard. -/
def getBlogRankCore (api : Nat → Except (List Char) (List SearchItem)) (pat : List Char) :
    Nat → Nat → Nat → Except (List Char) (Option Nat)
  | 0, _, _ => Except.ok none
  | fuel + 1, start, rank =>
    if start ≤ 100 then
      match api start with
      | Except.error e => Except.error e
      | Except.ok items =>
        match scanItems pat rank items with
        | (some r, _) => Except.ok (some r)
        | (none, rank1) =>
          if items.length < 10 then Except.ok none
          else getBlogRankCore api pat fuel (start + 10) rank1
    else Except.ok none

/-- The single log line emitted by the `catch` branch of `getBlogRank`. -/
def rankErrorLog (keyword msg : List Char) : List Char :=
  "[순위 조회 오류] \"".toList ++ keyword ++ "\": ".toList ++ msg

/-- Source `getBlogRank`: run the page loop; a thrown error is caught at
this boundary, logged once, and converted to `null`.  The second component
is the list of log lines emitted through `onLog`. -/
def getBlogRank (keyword blogId : List Char) (api : SearchApi) :
    Option Nat × List (List Char) :=
  match getBlogRankCore (api keyword) (searchPat blogId) 10 1 0 with
  | Except.ok r => (r, [])
  | Except.error e => (none, [rankErrorLog keyword e])

/-- A JS number as `parseVolume` handles it: NaN, the two infinities, or a
finite value.  Every finite IEEE-754 double is exactly a rational, so the
finite payload is carried as a rational; `parseVolume` itself only ever
produces the finite literals 5 and 0 and passes every other value through
untouched, so no rounding enters the model. -/
inductive JsNumber where
  | nan
  | posInf
  | negInf
  | finite (q : ℚ)
deriving DecidableEq

/-- A JS value as far as `parseVolume` can distinguish it: a number, a
string, or any other value, the latter kept abstract as "coerces to NaN"
(`undefined`, objects, …). -/
inductive JsValue where
  | num (v : JsNumber)
  | str (s : List Char)
  | nonNumeric
deriving DecidableEq

/-- Source `parseVolume`: a number passes through unchanged (NaN and the
infinities included, since the typeof test fires before the NaN check); a
string containing `<` is the "fewer than N" sentinel and becomes the floor
value 5; any other string goes through the `Number(...)` coercion, with
NaN defaulting to 0.  `Number` itself is a host builtin, not code of this
repository, and is abstracted as the `toNumber` argument exactly as the
HTTP layer is abstracted as an API oracle; the theorems constrain it only
by the property that no string containing `<` is numeric, which the JS
numeric-literal grammar guarantees. -/
def parseVolume (toNumber : List Char → JsNumber) : JsValue → JsNumber
  | JsValue.num v => v
  | JsValue.str s =>
    if '<' ∈ s then JsNumber.finite 5
    else if toNumber s = JsNumber.nan then JsNumber.finite 0
    else toNumber s
  | JsValue.nonNumeric => JsNumber.finite 0

/-- A concrete coercion for the witness: parses the worked numeric example
of the spec and treats every other string as NaN. -/
def toNumberWit : List Char → JsNumber := fun s =>
  if s = "1234".toList then JsNumber.finite 1234 else JsNumber.nan

/-- Source `Grade`. -/
inductive Grade where
  | S
  | A
  | B
  | C
  | «미노출»
deriving DecidableEq, Repr

/-- Source `calcGrade`. -/
def calcGrade : Option Int → Grade
  | none => Grade.«미노출»
  | some rank =>
    if rank = 1 then Grade.S
    else if rank ≤ 5 then Grade.A
    else if rank ≤ 10 then Grade.B
    else if rank ≤ 30 then Grade.C
    else Grade.«미노출»

/-- Spec-side reading of best-keyword selection: the first entry in list
order whose rank is non-null and minimal among the non-null ranks (ties in
favour of the earlier position). -/
def firstMinEntry : List RankEntry → Option RankEntry
  | [] => none
  | e :: es =>
    match e.rank with
    | none => firstMinEntry es
    | some _ =>
      match firstMinEntry es with
      | none => some e
      | some m => if rankVal e ≤ rankVal m then some e else some m

/-- Spec-side reading of the particle stripper: strip the first particle in
list order that is a suffix whose removal leaves at least two characters;
strip nothing otherwise. -/
def stripFirstValid (word : List Char) : List Char :=
  match PARTICLES.find? (fun p => p.isSuffixOf word && decide (2 ≤ word.length - p.length)) with
  | some p => word.take (word.length - p.length)
  | none => word

/-- Spec-side hashtag segment of the smart keywords: up to the first five
distinct hashtags, in extracted order. -/
def hashtagSegment (hashtags : List (List Char)) : List (List Char) :=
  (dedupFirst hashtags).take 5

/-- The ranks list of the worked example in the spec: entry a unranked,
entry b at rank 7, entry c at rank 3. -/
def demoRanks : List RankEntry :=
  [⟨"a".toList, none⟩, ⟨"b".toList, some 7⟩, ⟨"c".toList, some 3⟩]

/-- A ranks list in which no keyword was found within the horizon. -/
def nullRanks : List RankEntry :=
  [⟨"a".toList, none⟩, ⟨"b".toList, none⟩]

/-- A result item that does not mention the probed blog. -/
def nonItem : SearchItem :=
  ⟨"https://example.com/x".toList, none⟩

/-- A result item whose link contains `blog.naver.com/myblog` up to case. -/
def matchItem : SearchItem :=
  ⟨"https://Blog.Naver.com/MyBlog/1".toList, none⟩

/-- API behaviour: the match sits at the tenth item of the first page. -/
def apiBoundary : SearchApi := fun _ s =>
  if s = 1 then Except.ok (List.replicate 9 nonItem ++ [matchItem]) else Except.ok []

/-- API behaviour: a full first page without match, the match first on the
second page. -/
def apiSecond : SearchApi := fun _ s =>
  if s = 1 then Except.ok (List.replicate 10 nonItem)
  else if s = 11 then Except.ok [matchItem] else Except.ok []

/-- API behaviour: every page is full and never matches. -/
def apiNone : SearchApi := fun _ _ =>
  Except.ok (List.replicate 10 nonItem)

/-- API behaviour: a short (3-item) first page; a match would be available
on the next page, but the prober must stop at the short page. -/
def apiShort : SearchApi := fun _ s =>
  if s = 1 then Except.ok (List.replicate 3 nonItem) else Except.ok [matchItem]

/-- API behaviour: the transport fails on every call. -/
def apiErr : SearchApi := fun _ _ =>
  Except.error "boom".toList

/-- Hashtag list for the smart-keyword witness. -/
def demoTags : List (List Char) :=
  ["a".toList, "b".toList, "a".toList]

/-- A probe-result sequence whose title probe (call 0) answers rank 1. -/
def oWit1 : Nat → Option Nat := fun n => if n = 0 then some 1 else none

/-- A probe-result sequence that never finds the blog. -/
def oWit2 : Nat → Option Nat := fun _ => none

/-! ### Helper lemmas -/

theorem dedupAux_sublist [DecidableEq α] (l : List α) : ∀ seen,
    List.Sublist (dedupAux seen l) l := by
  induction l with
  | nil => intro seen; simp [dedupAux]
  | cons x xs ih =>
    intro seen
    rw [dedupAux]
    split
    · exact (ih seen).cons x
    · exact (ih (x :: seen)).cons₂ x

theorem mem_dedupAux [DecidableEq α] (l : List α) : ∀ (seen : List α) (x : α),
    x ∈ dedupAux seen l ↔ x ∈ l ∧ x ∉ seen := by
  induction l with
  | nil => intro seen x; simp [dedupAux]
  | cons y ys ih =>
    intro seen x
    by_cases h : y ∈ seen
    · rw [dedupAux, if_pos h, ih]
      simp only [List.mem_cons]
      constructor
      · exact fun hx => ⟨Or.inr hx.1, hx.2⟩
      · rintro ⟨rfl | hx, hn⟩
        · exact absurd h hn
        · exact ⟨hx, hn⟩
    · rw [dedupAux, if_neg h]
      simp only [List.mem_cons, ih (y :: seen) x]
      constructor
      · rintro (rfl | ⟨hx, hn⟩)
        · exact ⟨Or.inl rfl, h⟩
        · exact ⟨Or.inr hx, fun hs => hn (Or.inr hs)⟩
      · rintro ⟨rfl | hx, hn⟩
        · exact Or.inl rfl
        · rcases eq_or_ne x y with rfl | hxy
          · exact Or.inl rfl
          · exact Or.inr ⟨hx, by simp [List.mem_cons, hxy, hn]⟩

theorem dedupAux_nodup [DecidableEq α] (l : List α) : ∀ seen, (dedupAux seen l).Nodup := by
  induction l with
  | nil => intro seen; simp [dedupAux]
  | cons y ys ih =>
    intro seen
    by_cases h : y ∈ seen
    · rw [dedupAux, if_pos h]; exact ih seen
    · rw [dedupAux, if_neg h]
      refine List.nodup_cons.mpr ⟨fun hy => ?_, ih (y :: seen)⟩
      exact ((mem_dedupAux ys (y :: seen) y).mp hy).2 (List.mem_cons_self y seen)

theorem dedupAux_congr [DecidableEq α] (l : List α) : ∀ s1 s2, (∀ y, y ∈ s1 ↔ y ∈ s2) →
    dedupAux s1 l = dedupAux s2 l := by
  induction l with
  | nil => intro _ _ _; rfl
  | cons y ys ih =>
    intro s1 s2 hs
    by_cases h : y ∈ s1
    · rw [dedupAux, if_pos h, dedupAux, if_pos ((hs y).mp h)]
      exact ih _ _ hs
    · rw [dedupAux, if_neg h, dedupAux, if_neg (fun hy => h ((hs y).mpr hy))]
      exact congrArg (y :: ·) (ih _ _ (fun z => by simp only [List.mem_cons]; rw [hs z]))

theorem fillFrom_eq (xs : List (List Char)) : ∀ acc,
    fillFrom acc xs = acc ++ (dedupAux acc xs).take (5 - acc.length) := by
  induction xs with
  | nil => intro acc; simp [fillFrom, dedupAux]
  | cons x xs ih =>
    intro acc
    by_cases h5 : 5 ≤ acc.length
    · rw [fillFrom, if_pos h5, Nat.sub_eq_zero_of_le h5]
      simp
    · rw [fillFrom, if_neg h5]
      by_cases hx : x ∈ acc
      · rw [if_pos hx, ih acc, dedupAux, if_pos hx]
      · rw [if_neg hx, ih (acc ++ [x]), dedupAux, if_neg hx]
        rw [dedupAux_congr xs (acc ++ [x]) (x :: acc)
          (fun y => by simp only [List.mem_append, List.mem_cons, List.mem_singleton]; tauto)]
        have h2 : 5 - acc.length = (5 - (acc ++ [x]).length) + 1 := by
          simp only [List.length_append, List.length_singleton]; omega
        rw [h2, List.take_succ_cons, List.append_assoc, List.singleton_append]

theorem head?_orderedInsert (r : α → α → Prop) [DecidableRel r] (a : α) (l : List α) :
    (List.orderedInsert r a l).head? =
      some (match l.head? with
            | none => a
            | some b => if r a b then a else b) := by
  cases l with
  | nil => rfl
  | cons b t =>
    by_cases h : r a b
    · simp [List.orderedInsert, h]
    · simp [List.orderedInsert, h]

theorem bestOf_eq_firstMinEntry (ranks : List RankEntry) :
    bestOf ranks = firstMinEntry ranks := by
  induction ranks with
  | nil => rfl
  | cons e es ih =>
    cases he : e.rank with
    | none =>
      have hf : (e :: es).filter (fun r => r.rank.isSome) =
          es.filter (fun r => r.rank.isSome) := by
        simp [List.filter_cons, he]
      simp only [bestOf, rankedOf] at ih ⊢
      rw [hf, ih, firstMinEntry, he]
    | some v =>
      have hf : (e :: es).filter (fun r => r.rank.isSome) =
          e :: es.filter (fun r => r.rank.isSome) := by
        simp [List.filter_cons, he]
      simp only [bestOf, rankedOf] at ih ⊢
      rw [hf, List.insertionSort, head?_orderedInsert, ih]
      rw [firstMinEntry, he]
      cases firstMinEntry es with
      | none => simp
      | some m =>
        by_cases hm : rankLe e m
        · have hm2 : rankVal e ≤ rankVal m := hm
          simp [hm, hm2]
        · have hm2 : ¬ rankVal e ≤ rankVal m := hm
          simp [hm, hm2]

theorem firstMinEntry_none (es : List RankEntry) :
    firstMinEntry es = none → ∀ e ∈ es, e.rank = none := by
  induction es with
  | nil => intro _ e he; simp at he
  | cons y ys ih =>
    intro h e he
    rw [firstMinEntry] at h
    cases hy : y.rank with
    | none =>
      rw [hy] at h
      rcases List.mem_cons.mp he with rfl | he2
      · exact hy
      · exact ih h e he2
    | some w =>
      rw [hy] at h
      dsimp only at h
      cases h2 : firstMinEntry ys <;> rw [h2] at h <;> dsimp only at h
      · exact absurd h (by simp)
      · split at h <;> simp at h

theorem firstMinEntry_min (ranks : List RankEntry) :
    ∀ m, firstMinEntry ranks = some m →
      m ∈ ranks ∧ m.rank ≠ none ∧ ∀ e ∈ ranks, e.rank ≠ none → rankVal m ≤ rankVal e := by
  induction ranks with
  | nil => intro m h; simp [firstMinEntry] at h
  | cons e es ih =>
    intro m h
    rw [firstMinEntry] at h
    cases he : e.rank with
    | none =>
      rw [he] at h
      obtain ⟨hmem, hrank, hmin⟩ := ih m h
      refine ⟨List.mem_cons_of_mem e hmem, hrank, ?_⟩
      intro x hx hxr
      rcases List.mem_cons.mp hx with rfl | hx
      · exact absurd he hxr
      · exact hmin x hx hxr
    | some v =>
      rw [he] at h
      dsimp only at h
      cases hfm : firstMinEntry es with
      | none =>
        rw [hfm] at h
        dsimp only at h
        cases h
        refine ⟨List.mem_cons_self e es, by simp [he], ?_⟩
        intro x hx hxr
        rcases List.mem_cons.mp hx with rfl | hx
        · exact Nat.le_refl _
        · exact absurd (firstMinEntry_none es hfm x hx) hxr
      | some m2 =>
        rw [hfm] at h
        dsimp only at h
        obtain ⟨hmem2, hrank2, hmin2⟩ := ih m2 hfm
        by_cases hle : rankVal e ≤ rankVal m2
        · rw [if_pos hle] at h
          cases h
          refine ⟨List.mem_cons_self e es, by simp [he], ?_⟩
          intro x hx hxr
          rcases List.mem_cons.mp hx with rfl | hx
          · exact Nat.le_refl _
          · exact Nat.le_trans hle (hmin2 x hx hxr)
        · rw [if_neg hle] at h
          cases h
          refine ⟨List.mem_cons_of_mem e hmem2, hrank2, ?_⟩
          intro x hx hxr
          rcases List.mem_cons.mp hx with rfl | hx
          · exact Nat.le_of_not_le hle
          · exact hmin2 x hx hxr

theorem scanItems_found (pat : List Char) : ∀ (items : List SearchItem) (rank r rank1 : Nat),
    scanItems pat rank items = (some r, rank1) → rank < r ∧ r ≤ rank + items.length := by
  intro items
  induction items with
  | nil => intro rank r rank1 h; simp [scanItems] at h
  | cons it rest ih =>
    intro rank r rank1 h
    rw [scanItems] at h
    split at h
    · have h1 : r = rank + 1 := by
        have h2 := congrArg Prod.fst h
        simpa using h2.symm
      subst h1
      simp only [List.length_cons]
      omega
    · have := ih (rank + 1) r rank1 h
      refine ⟨by omega, ?_⟩
      simp only [List.length_cons]
      omega

theorem scanItems_not_found (pat : List Char) : ∀ (items : List SearchItem) (rank rank1 : Nat),
    scanItems pat rank items = (none, rank1) → rank1 = rank + items.length := by
  intro items
  induction items with
  | nil => intro rank rank1 h; rw [scanItems] at h; cases h; simp
  | cons it rest ih =>
    intro rank rank1 h
    rw [scanItems] at h
    split at h
    · exact absurd h (by simp)
    · have := ih (rank + 1) rank1 h
      simp only [List.length_cons]
      omega

theorem getBlogRankCore_bound (api : Nat → Except (List Char) (List SearchItem))
    (pat : List Char) (hpage : ∀ s items, api s = Except.ok items → items.length ≤ 10) :
    ∀ (fuel start rank r : Nat),
      getBlogRankCore api pat fuel start rank = Except.ok (some r) →
      rank < r ∧ r ≤ rank + 10 * fuel := by
  intro fuel
  induction fuel with
  | zero => intro start rank r h; rw [getBlogRankCore] at h; exact absurd h (by simp)
  | succ n ih =>
    intro start rank r h
    rw [getBlogRankCore] at h
    split at h
    · cases hapi : api start with
      | error e => rw [hapi] at h; exact absurd h (by simp)
      | ok items =>
        rw [hapi] at h
        dsimp only at h
        cases hscan : scanItems pat rank items with
        | mk found rank1 =>
          rw [hscan] at h
          cases found with
          | some r2 =>
            dsimp only at h
            have hr : r2 = r := by simpa using h
            subst hr
            have hb := scanItems_found pat items rank r2 rank1 hscan
            have hlen := hpage start items hapi
            omega
          | none =>
            dsimp only at h
            split at h
            · exact absurd h (by simp)
            · have hrec := ih (start + 10) rank1 r h
              have hcount := scanItems_not_found pat items rank rank1 hscan
              have hlen := hpage start items hapi
              omega
    · exact absurd h (by simp)

theorem probeAll_congr (o1 o2 : Nat → Option Nat) (h : ∀ n, 1 ≤ n → o1 n = o2 n) :
    ∀ (ks : List (List Char)) (i : Nat), 1 ≤ i → probeAll o1 ks i = probeAll o2 ks i := by
  intro ks
  induction ks with
  | nil => intro i _; rfl
  | cons k ks ih =>
    intro i hi
    rw [probeAll, probeAll, h i hi, ih (i + 1) (by omega)]

theorem stripParticlesAux_eq_find (w : List Char) : ∀ ps,
    stripParticlesAux w ps =
      match ps.find? (fun p => p.isSuffixOf w && decide (2 ≤ w.length - p.length)) with
      | some p => w.take (w.length - p.length)
      | none => w := by
  intro ps
  induction ps with
  | nil => rfl
  | cons p ps ih =>
    by_cases hs : p.isSuffixOf w
    · by_cases h2 : 2 ≤ w.length - p.length
      · have hlt : p.length < w.length := by omega
        rw [stripParticlesAux, if_pos (by simp [hs, hlt])]
        rw [if_pos (by simp only [List.length_take]; omega)]
        rw [List.find?_cons_of_pos _ (by simp [hs, h2])]
      · rw [List.find?_cons_of_neg _ (by simp [h2]), ← ih]
        by_cases hlt : p.length < w.length
        · rw [stripParticlesAux, if_pos (by simp [hs, hlt])]
          rw [if_neg (by simp only [List.length_take]; omega)]
        · rw [stripParticlesAux, if_neg (by simp [hlt])]
    · rw [List.find?_cons_of_neg _ (by simp [hs]), ← ih]
      rw [stripParticlesAux, if_neg (by simp [hs])]

theorem hashtagScanAux_shape : ∀ (l : List Char) (cur : Option (List Char)),
    (∀ acc, cur = some acc → ∀ c ∈ acc, isHashtagChar c = true) →
    ∀ m ∈ hashtagScanAux cur l,
      ∃ run, m = '#' :: run ∧ run ≠ [] ∧ ∀ c ∈ run, isHashtagChar c = true := by
  intro l
  induction l with
  | nil =>
    intro cur hcur m hm
    rw [hashtagScanAux.eq_def] at hm
    cases cur with
    | none => simp at hm
    | some acc =>
      dsimp only at hm
      split at hm
      · simp at hm
      · next hne =>
        rw [List.mem_singleton] at hm
        subst hm
        refine ⟨acc.reverse, rfl, ?_, ?_⟩
        · intro hrev
          exact hne (by simp [List.reverse_eq_nil_iff.mp hrev])
        · intro d hd
          exact hcur acc rfl d (List.mem_reverse.mp hd)
  | cons c rest ih =>
    intro cur hcur m hm
    rw [hashtagScanAux.eq_def] at hm
    cases cur with
    | none =>
      dsimp only at hm
      split at hm
      · refine ih (some []) ?_ m hm
        intro acc2 h2
        injection h2 with h3
        subst h3
        intro d hd
        simp at hd
      · exact ih none (fun acc2 h2 => Option.noConfusion h2) m hm
    | some acc =>
      dsimp only at hm
      split at hm
      · next hc =>
        refine ih (some (c :: acc)) ?_ m hm
        intro acc2 h2
        injection h2 with h3
        subst h3
        intro d hd
        rcases List.mem_cons.mp hd with rfl | hd2
        · exact hc
        · exact hcur acc rfl d hd2
      · rcases List.mem_append.mp hm with hm1 | hm2
        · split at hm1
          · simp at hm1
          · next hne =>
            rw [List.mem_singleton] at hm1
            subst hm1
            refine ⟨acc.reverse, rfl, ?_, ?_⟩
            · intro hrev
              exact hne (by simp [List.reverse_eq_nil_iff.mp hrev])
            · intro d hd
              exact hcur acc rfl d (List.mem_reverse.mp hd)
        · split at hm2
          · refine ih (some []) ?_ m hm2
            intro acc2 h2
            injection h2 with h3
            subst h3
            intro d hd
            simp at hd
          · exact ih none (fun acc2 h2 => Option.noConfusion h2) m hm2

/-! ### Claim theorems -/

/-- C3: `calcGrade` maps a null rank to 미노출 and positive ranks through the
closed intervals `1 → S`, `2–5 → A`, `6–10 → B`, `11–30 → C`, `31+ → 미노출`;
the eight probe values of the boundary table in the spec behave accordingly. -/
theorem calcGrade_boundaries :
    (∀ r : Int, 1 ≤ r →
      ((calcGrade (some r) = Grade.S ↔ r = 1) ∧
       (calcGrade (some r) = Grade.A ↔ 2 ≤ r ∧ r ≤ 5) ∧
       (calcGrade (some r) = Grade.B ↔ 6 ≤ r ∧ r ≤ 10) ∧
       (calcGrade (some r) = Grade.C ↔ 11 ≤ r ∧ r ≤ 30) ∧
       (calcGrade (some r) = Grade.«미노출» ↔ 31 ≤ r))) ∧
    calcGrade none = Grade.«미노출» ∧
    calcGrade (some 1) = Grade.S ∧ calcGrade (some 2) = Grade.A ∧
    calcGrade (some 5) = Grade.A ∧ calcGrade (some 6) = Grade.B ∧
    calcGrade (some 10) = Grade.B ∧ calcGrade (some 11) = Grade.C ∧
    calcGrade (some 30) = Grade.C ∧ calcGrade (some 31) = Grade.«미노출» := by
  refine ⟨?_, by decide, by decide, by decide, by decide, by decide, by decide,
    by decide, by decide, by decide⟩
  intro r hr
  rw [calcGrade]
  split_ifs with h1 h2 h3 h4 <;>
    refine ⟨?_, ?_, ?_, ?_, ?_⟩ <;>
      first
        | exact iff_of_true rfl (by omega)
        | exact iff_of_false (by decide) (by omega)

/-- Witness for `calcGrade_boundaries`, instantiated at rank 7. -/
theorem calcGrade_boundaries_witness :
    (1 : Int) ≤ 7 ∧ (calcGrade (some 7) = Grade.B ↔ (6 : Int) ≤ 7 ∧ (7 : Int) ≤ 10) :=
  ⟨by decide, (calcGrade_boundaries.1 7 (by decide)).2.2.1⟩

/-- C10: for every input and every probe behaviour the result of the orchestrator
carries `searchVolume = null`; the volume enricher is never consulted. -/
theorem analyzeBlogPosts_searchVolume_none (title content : List Char)
    (oracle : Nat → Option Nat) :
    (analyzeBlogPosts title content oracle).searchVolume = none := rfl

/-- C9: `parseVolume` returns numbers unchanged, maps every string
containing `<` to the floor value 5 (never 0), returns the coerced number
of every numeric string, and defaults any other unparseable value to 0 —
for every behaviour of the host `Number` coercion satisfying the one fact
that no numeric string contains the sentinel character. -/
theorem parseVolume_spec (toNumber : List Char → JsNumber)
    (hlt : ∀ s, '<' ∈ s → toNumber s = JsNumber.nan) :
    (∀ v, parseVolume toNumber (JsValue.num v) = v) ∧
    (∀ s, '<' ∈ s → parseVolume toNumber (JsValue.str s) = JsNumber.finite 5) ∧
    (∀ s, toNumber s ≠ JsNumber.nan →
      parseVolume toNumber (JsValue.str s) = toNumber s) ∧
    (∀ s, '<' ∉ s → toNumber s = JsNumber.nan →
      parseVolume toNumber (JsValue.str s) = JsNumber.finite 0) ∧
    parseVolume toNumber JsValue.nonNumeric = JsNumber.finite 0 ∧
    parseVolume toNumber (JsValue.str "<10".toList) = JsNumber.finite 5 ∧
    (toNumber "1234".toList = JsNumber.finite 1234 →
      parseVolume toNumber (JsValue.str "1234".toList) = JsNumber.finite 1234) ∧
    (toNumber "abc".toList = JsNumber.nan →
      parseVolume toNumber (JsValue.str "abc".toList) = JsNumber.finite 0) := by
  have h2 : ∀ s, '<' ∈ s → parseVolume toNumber (JsValue.str s) = JsNumber.finite 5 := by
    intro s hs
    rw [parseVolume, if_pos hs]
  have h3 : ∀ s, toNumber s ≠ JsNumber.nan →
      parseVolume toNumber (JsValue.str s) = toNumber s := by
    intro s hn
    have hs : '<' ∉ s := fun hmem => hn (hlt s hmem)
    rw [parseVolume, if_neg hs, if_neg hn]
  have h4 : ∀ s, '<' ∉ s → toNumber s = JsNumber.nan →
      parseVolume toNumber (JsValue.str s) = JsNumber.finite 0 := by
    intro s hs hn
    rw [parseVolume, if_neg hs, if_pos hn]
  refine ⟨fun v => rfl, h2, h3, h4, rfl, h2 _ (by decide), ?_, ?_⟩
  · intro h1234
    have hn : toNumber "1234".toList ≠ JsNumber.nan := by
      rw [h1234]
      intro hfalse
      exact JsNumber.noConfusion hfalse
    rw [h3 _ hn, h1234]
  · intro habc
    exact h4 _ (by decide) habc

/-- Witness for `parseVolume_spec`: the three probe strings of the spec,
under the concrete coercion `toNumberWit`. -/
theorem parseVolume_spec_witness :
    parseVolume toNumberWit (JsValue.str "<10".toList) = JsNumber.finite 5 ∧
    parseVolume toNumberWit (JsValue.str "1234".toList) = JsNumber.finite 1234 ∧
    parseVolume toNumberWit (JsValue.str "abc".toList) = JsNumber.finite 0 := by
  have hlt : ∀ s, '<' ∈ s → toNumberWit s = JsNumber.nan := by
    intro s hs
    simp only [toNumberWit]
    split
    · next heq =>
      subst heq
      exact absurd hs (by decide)
    · rfl
  exact ⟨(parseVolume_spec toNumberWit hlt).2.2.2.2.2.1,
    (parseVolume_spec toNumberWit hlt).2.2.2.2.2.2.1 (by decide),
    (parseVolume_spec toNumberWit hlt).2.2.2.2.2.2.2 (by decide)⟩

/-- C5: `stripParticles` strips at most one suffix — the first particle in
the fixed list order whose removal leaves at least two characters; a listed
suffix whose removal would leave fewer than two characters is skipped while
later entries are still tried, and stripping is never iterated; the two
probe examples behave as the spec states. -/
theorem stripParticles_first_match :
    (∀ w, stripParticles w = stripFirstValid w) ∧
    stripParticles "키워드를".toList = "키워드".toList ∧
    stripParticles "가".toList = "가".toList := by
  refine ⟨?_, by decide, by decide⟩
  intro w
  rw [stripParticles, stripFirstValid, stripParticlesAux_eq_find]

/-- C6: every error raised by the underlying search-API call is caught at
the `getBlogRank` boundary: the probe then returns `null` after emitting
exactly one log line through the sink; a successful probe emits none; in
every case the call returns a plain pair, so no failure propagates out of
`getBlogRank`. -/
theorem getBlogRank_catches_errors (api : SearchApi) (keyword blogId : List Char) :
    (∀ e, getBlogRankCore (api keyword) (searchPat blogId) 10 1 0 = Except.error e →
      getBlogRank keyword blogId api = (none, [rankErrorLog keyword e])) ∧
    (∀ r, getBlogRankCore (api keyword) (searchPat blogId) 10 1 0 = Except.ok r →
      getBlogRank keyword blogId api = (r, [])) ∧
    (getBlogRank keyword blogId api).2.length ≤ 1 ∧
    ((getBlogRank keyword blogId api).2 ≠ [] → (getBlogRank keyword blogId api).1 = none) := by
  cases hc : getBlogRankCore (api keyword) (searchPat blogId) 10 1 0 with
  | ok r =>
    have hg : getBlogRank keyword blogId api = (r, []) := by
      rw [getBlogRank, hc]
    refine ⟨?_, ?_, ?_, ?_⟩
    · intro e he
      simp at he
    · intro r2 hr
      injection hr with h3
      subst h3
      exact hg
    · rw [hg]
      simp
    · intro hne
      rw [hg] at hne
      exact absurd rfl hne
  | error e =>
    have hg : getBlogRank keyword blogId api = (none, [rankErrorLog keyword e]) := by
      rw [getBlogRank, hc]
    refine ⟨?_, ?_, ?_, ?_⟩
    · intro e2 he
      injection he with h3
      subst h3
      exact hg
    · intro r2 hr
      simp at hr
    · rw [hg]
      simp
    · intro _
      rw [hg]

/-- Witness for `getBlogRank_catches_errors`: a probe against an API whose
every call throws returns `null` with the single formatted log line. -/
theorem getBlogRank_catches_errors_witness :
    getBlogRank "kw".toList "myblog".toList apiErr =
      (none, [rankErrorLog "kw".toList "boom".toList]) :=
  (getBlogRank_catches_errors apiErr "kw".toList "myblog".toList).1
    "boom".toList (by rfl)

/-- C2: assuming every page carries at most the requested ten items, a rank
probe returns `null` or a positive rank of at most 100; the running counter
is 1-indexed and absolute across pages — a match at the tenth item of page
one yields exactly 10 and at the first item of page two exactly 11; a short
page stops the scan even though later pages would match, and scanning the
full 100-result horizon without a match yields `null`. -/
theorem getBlogRank_range (api : SearchApi) (keyword blogId : List Char)
    (hpage : ∀ k s items, api k s = Except.ok items → items.length ≤ 10) :
    ((getBlogRank keyword blogId api).1 = none ∨
      ∃ r, (getBlogRank keyword blogId api).1 = some r ∧ 1 ≤ r ∧ r ≤ 100) ∧
    (getBlogRank "kw".toList "myblog".toList apiBoundary).1 = some 10 ∧
    (getBlogRank "kw".toList "myblog".toList apiSecond).1 = some 11 ∧
    (getBlogRank "kw".toList "myblog".toList apiNone).1 = none ∧
    (getBlogRank "kw".toList "myblog".toList apiShort).1 = none := by
  refine ⟨?_, by decide, by decide, by decide, by decide⟩
  cases hc : getBlogRankCore (api keyword) (searchPat blogId) 10 1 0 with
  | error e =>
    left
    rw [getBlogRank, hc]
  | ok ro =>
    cases ro with
    | none =>
      left
      rw [getBlogRank, hc]
    | some r =>
      right
      have hb := getBlogRankCore_bound (api keyword) (searchPat blogId)
        (fun s items h => hpage keyword s items h) 10 1 0 r hc
      exact ⟨r, by rw [getBlogRank, hc], by omega, by omega⟩

/-- Witness for `getBlogRank_range`: the always-full, never-matching API
satisfies the page-size bound and indeed yields a result in range. -/
theorem getBlogRank_range_witness :
    (getBlogRank "kw".toList "myblog".toList apiNone).1 = none ∨
      ∃ r, (getBlogRank "kw".toList "myblog".toList apiNone).1 = some r ∧ 1 ≤ r ∧ r ≤ 100 :=
  (getBlogRank_range apiNone "kw".toList "myblog".toList
    (fun k s items h => by
      injection h with h2
      rw [← h2]
      decide)).1

/-- C8: the title probe is diagnostic only.  Two runs on the same title and
content whose probes agree on every pool call (calls 1 and later) produce
results identical in every field except `titleRank`, which merely reports
the title probe (call 0) of each run separately. -/
theorem titleRank_diagnostic_only (title content : List Char)
    (o1 o2 : Nat → Option Nat) (h : ∀ n, 1 ≤ n → o1 n = o2 n) :
    (analyzeBlogPosts title content o1).hashtags =
      (analyzeBlogPosts title content o2).hashtags ∧
    (analyzeBlogPosts title content o1).smartKeywords =
      (analyzeBlogPosts title content o2).smartKeywords ∧
    (analyzeBlogPosts title content o1).pool = (analyzeBlogPosts title content o2).pool ∧
    (analyzeBlogPosts title content o1).ranks = (analyzeBlogPosts title content o2).ranks ∧
    (analyzeBlogPosts title content o1).bestKeyword =
      (analyzeBlogPosts title content o2).bestKeyword ∧
    (analyzeBlogPosts title content o1).bestRank =
      (analyzeBlogPosts title content o2).bestRank ∧
    (analyzeBlogPosts title content o1).otherGoodKeywords =
      (analyzeBlogPosts title content o2).otherGoodKeywords ∧
    (analyzeBlogPosts title content o1).finalKeyword =
      (analyzeBlogPosts title content o2).finalKeyword ∧
    (analyzeBlogPosts title content o1).searchVolume =
      (analyzeBlogPosts title content o2).searchVolume ∧
    (analyzeBlogPosts title content o1).titleRank = o1 0 ∧
    (analyzeBlogPosts title content o2).titleRank = o2 0 := by
  have hranks : probeAll o1 (mergeKeywordPool (extractHashtags content)
      (extractSmartKeywords title content (extractHashtags content))) 1 =
    probeAll o2 (mergeKeywordPool (extractHashtags content)
      (extractSmartKeywords title content (extractHashtags content))) 1 :=
    probeAll_congr o1 o2 h _ 1 (Nat.le_refl 1)
  exact ⟨rfl, rfl, rfl, hranks, congrArg bestKeywordOf hranks, congrArg bestRankOf hranks,
    congrArg otherGoodOf hranks, congrArg bestKeywordOf hranks, rfl, rfl, rfl⟩

/-- Witness for `titleRank_diagnostic_only`: two oracles agreeing on every
pool call but answering the title probe differently. -/
theorem titleRank_diagnostic_only_witness :
    (analyzeBlogPosts [] [] oWit1).bestKeyword = (analyzeBlogPosts [] [] oWit2).bestKeyword ∧
    (analyzeBlogPosts [] [] oWit1).titleRank = some 1 ∧
    (analyzeBlogPosts [] [] oWit2).titleRank = none :=
  ⟨(titleRank_diagnostic_only [] [] oWit1 oWit2
      (fun n hn => by unfold oWit1 oWit2; rw [if_neg (by omega)])).2.2.2.2.1,
   by decide, by decide⟩

/-- C1: best-keyword selection.  `bestOf` — and with it `bestKeyword` and
`bestRank` — is the first entry in pool order attaining the minimal
non-null rank (`firstMinEntry`: ties resolved in favour of the earlier
position, as the stable ascending sort guarantees); when every rank is null
the selection is null and `otherGoodKeywords` is empty; `otherGoodKeywords`
holds exactly the non-null-ranked entries other than the best keyword with
rank at most 10, in ascending rank order. -/
theorem best_selection_spec (ranks : List RankEntry) :
    bestOf ranks = firstMinEntry ranks ∧
    bestKeywordOf ranks = (firstMinEntry ranks).map RankEntry.keyword ∧
    bestRankOf ranks = (firstMinEntry ranks).bind RankEntry.rank ∧
    (∀ m, firstMinEntry ranks = some m →
      m ∈ ranks ∧ m.rank ≠ none ∧ ∀ e ∈ ranks, e.rank ≠ none → rankVal m ≤ rankVal e) ∧
    ((∀ e ∈ ranks, e.rank = none) →
      bestKeywordOf ranks = none ∧ bestRankOf ranks = none ∧ otherGoodOf ranks = []) ∧
    (∀ e, e ∈ otherGoodOf ranks ↔
      e ∈ ranks ∧ e.rank ≠ none ∧ some e.keyword ≠ bestKeywordOf ranks ∧ rankVal e ≤ 10) ∧
    (otherGoodOf ranks).Pairwise rankLe := by
  have h1 := bestOf_eq_firstMinEntry ranks
  have hmem : ∀ e, e ∈ rankedOf ranks ↔ e ∈ ranks ∧ e.rank ≠ none := by
    intro e
    rw [rankedOf, (List.perm_insertionSort rankLe _).mem_iff, List.mem_filter]
    simp [Option.isSome_iff_ne_none]
  refine ⟨h1, ?_, ?_, firstMinEntry_min ranks, ?_, ?_, ?_⟩
  · rw [bestKeywordOf, h1]
  · rw [bestRankOf, h1]
  · intro hall
    have hfil : ranks.filter (fun r => r.rank.isSome) = [] :=
      List.filter_eq_nil_iff.mpr (fun a ha => by simp [hall a ha])
    have hranked : rankedOf ranks = [] := by rw [rankedOf, hfil]; rfl
    refine ⟨?_, ?_, ?_⟩
    · rw [bestKeywordOf, bestOf, hranked]; rfl
    · rw [bestRankOf, bestOf, hranked]; rfl
    · rw [otherGoodOf, hranked]; rfl
  · intro e
    rw [otherGoodOf, List.mem_filter, hmem e]
    simp only [Bool.and_eq_true, decide_eq_true_eq]
    tauto
  · exact (List.sorted_insertionSort rankLe _).filter _

/-- Witness for `best_selection_spec`: the worked example of the spec
(a unranked, b at rank 7, c at rank 3) and an all-null run. -/
theorem best_selection_spec_witness :
    bestOf demoRanks = firstMinEntry demoRanks ∧
    (bestKeywordOf nullRanks = none ∧ bestRankOf nullRanks = none ∧
      otherGoodOf nullRanks = []) :=
  ⟨(best_selection_spec demoRanks).1,
   (best_selection_spec nullRanks).2.2.2.2.1 (by decide)⟩

/-- C7: hashtag extraction returns the scanned `#`-tokens — each a `#`
followed by a non-empty run of Hangul/Latin/digit/underscore characters —
with the leading marker removed and duplicates removed keeping the first
occurrence in scan order: the result is duplicate-free, a sublist of the
stripped matches with the same members, every match has the required
shape, and the example of the spec yields exactly `["봄"]` (a three-tag example
additionally pins down the first-occurrence order). -/
theorem extractHashtags_spec :
    (∀ s, (extractHashtags s).Nodup ∧
      (∀ t, t ∈ extractHashtags s ↔ t ∈ (hashtagMatches s).map (removeFirst '#')) ∧
      List.Sublist (extractHashtags s) ((hashtagMatches s).map (removeFirst '#')) ∧
      (∀ m ∈ hashtagMatches s, ∃ run, m = '#' :: run ∧ run ≠ [] ∧
        ∀ c ∈ run, isHashtagChar c = true)) ∧
    extractHashtags "#봄 옷 #봄".toList = ["봄".toList] ∧
    extractHashtags "#a #b #a".toList = ["a".toList, "b".toList] := by
  refine ⟨?_, by decide, by decide⟩
  intro s
  refine ⟨dedupAux_nodup _ [], ?_, dedupAux_sublist _ [], ?_⟩
  · intro t
    rw [extractHashtags, dedupFirst, mem_dedupAux]
    simp
  · intro m hm
    exact hashtagScanAux_shape s none (fun acc h => Option.noConfusion h) m hm

/-- Witness for `extractHashtags_spec`: the match scanned from the example
example has the regex shape. -/
theorem extractHashtags_spec_witness :
    ∃ run, "#봄".toList = '#' :: run ∧ run ≠ [] ∧ ∀ c ∈ run, isHashtagChar c = true :=
  (extractHashtags_spec.1 "#봄 옷 #봄".toList).2.2.2 "#봄".toList (by decide)

theorem fillFrom_length_le (xs acc : List (List Char)) (h : acc.length ≤ 5) :
    (fillFrom acc xs).length ≤ 5 := by
  rw [fillFrom_eq, List.length_append]
  have := List.length_take_le (5 - acc.length) (dedupAux acc xs)
  omega

theorem fillFrom_nodup (xs acc : List (List Char)) (h : acc.Nodup) :
    (fillFrom acc xs).Nodup := by
  rw [fillFrom_eq]
  refine List.Nodup.append h ((dedupAux_nodup xs acc).sublist (List.take_sublist _ _)) ?_
  intro a ha hta
  exact ((mem_dedupAux xs acc a).mp (List.Sublist.mem hta (List.take_sublist _ _))).2 ha

theorem fillFrom_complete (xs acc : List (List Char))
    (h : (fillFrom acc xs).length < 5) :
    ∀ y, (y ∈ acc ∨ y ∈ xs) → y ∈ fillFrom acc xs := by
  have htk : (dedupAux acc xs).take (5 - acc.length) = dedupAux acc xs := by
    apply List.take_of_length_le
    by_contra hgt
    push_neg at hgt
    rw [fillFrom_eq, List.length_append, List.length_take] at h
    omega
  intro y hy
  rw [fillFrom_eq, htk, List.mem_append]
  rcases hy with hy | hy
  · exact Or.inl hy
  · by_cases hyacc : y ∈ acc
    · exact Or.inl hyacc
    · exact Or.inr ((mem_dedupAux xs acc y).mpr ⟨hy, hyacc⟩)

/-- C4: smart-keyword selection.  The result holds at most five entries with
no duplicates; its prefix is the hashtag segment (so with fewer than five
distinct hashtags, every hashtag precedes every derived keyword); the rest
is a stable-sorted descending-score selection of the scored nouns followed
by title n-grams in generation order; and a result shorter than five
entries already contains every available candidate (all sources
exhausted). -/
theorem extractSmartKeywords_spec (title content : List Char)
    (hashtags : List (List Char)) :
    (extractSmartKeywords title content hashtags).length ≤ 5 ∧
    (extractSmartKeywords title content hashtags).Nodup ∧
    (extractSmartKeywords title content hashtags).take (hashtagSegment hashtags).length =
      hashtagSegment hashtags ∧
    ((dedupFirst hashtags).length < 5 →
      ∃ rest, extractSmartKeywords title content hashtags = dedupFirst hashtags ++ rest) ∧
    (∃ ps rest, extractSmartKeywords title content hashtags =
        hashtagSegment hashtags ++ ps.map Prod.fst ++ rest ∧
      List.Sublist ps (sortedScoredNouns title content) ∧
      ps.Pairwise scoreGe ∧
      List.Sublist rest (extractTitleNgrams title)) ∧
    ((extractSmartKeywords title content hashtags).length < 5 →
      ∀ x, (x ∈ hashtags ∨ x ∈ (scoredNouns title content).map Prod.fst ∨
          x ∈ extractTitleNgrams title) →
        x ∈ extractSmartKeywords title content hashtags) := by
  have hr1eq : fillFrom [] hashtags = hashtagSegment hashtags := by
    rw [fillFrom_eq, hashtagSegment, dedupFirst]
    simp
  have hr1len : (fillFrom [] hashtags).length ≤ 5 :=
    fillFrom_length_le hashtags [] (by simp)
  have hr1nodup : (fillFrom [] hashtags).Nodup :=
    fillFrom_nodup hashtags [] List.nodup_nil
  have hdseg : (dedupFirst hashtags).length < 5 →
      hashtagSegment hashtags = dedupFirst hashtags := by
    intro hd5
    rw [hashtagSegment]
    exact List.take_of_length_le (by omega)
  by_cases h1 : 5 ≤ (fillFrom [] hashtags).length
  · have hK : extractSmartKeywords title content hashtags = fillFrom [] hashtags := by
      simp only [extractSmartKeywords]
      rw [if_pos h1]
    refine ⟨?_, ?_, ?_, ?_, ?_, ?_⟩
    · rw [hK]; exact hr1len
    · rw [hK]; exact hr1nodup
    · rw [hK, hr1eq]; exact List.take_length _
    · intro hd5
      exact ⟨[], by rw [hK, hr1eq, List.append_nil, hdseg hd5]⟩
    · exact ⟨[], [], by rw [hK, hr1eq]; simp, List.nil_sublist _, List.Pairwise.nil,
        List.nil_sublist _⟩
    · intro hlt
      rw [hK] at hlt
      omega
  · have hδ2 := fillFrom_eq ((sortedScoredNouns title content).map Prod.fst)
      (fillFrom [] hashtags)
    have hr2len : (fillFrom (fillFrom [] hashtags)
        ((sortedScoredNouns title content).map Prod.fst)).length ≤ 5 :=
      fillFrom_length_le _ _ hr1len
    have hr2nodup := fillFrom_nodup ((sortedScoredNouns title content).map Prod.fst)
      (fillFrom [] hashtags) hr1nodup
    have hsub2 : List.Sublist
        ((dedupAux (fillFrom [] hashtags) ((sortedScoredNouns title content).map Prod.fst)).take
          (5 - (fillFrom [] hashtags).length))
        ((sortedScoredNouns title content).map Prod.fst) :=
      (List.take_sublist _ _).trans (dedupAux_sublist _ _)
    obtain ⟨ps, hpsSub, hpsEq⟩ := List.sublist_map_iff.mp hsub2
    have hpw : ps.Pairwise scoreGe :=
      (List.sorted_insertionSort scoreGe _).sublist hpsSub
    by_cases h2 : 5 ≤ (fillFrom (fillFrom [] hashtags)
        ((sortedScoredNouns title content).map Prod.fst)).length
    · have hK : extractSmartKeywords title content hashtags =
          fillFrom (fillFrom [] hashtags) ((sortedScoredNouns title content).map Prod.fst) := by
        simp only [extractSmartKeywords]
        rw [if_neg h1, if_pos h2]
      refine ⟨?_, ?_, ?_, ?_, ?_, ?_⟩
      · rw [hK]; exact hr2len
      · rw [hK]; exact hr2nodup
      · rw [hK, hδ2, hr1eq]; exact List.take_left _ _
      · intro hd5
        exact ⟨_, by rw [hK, hδ2, hr1eq, hdseg hd5]⟩
      · refine ⟨ps, [], ?_, hpsSub, hpw, List.nil_sublist _⟩
        rw [hK, hδ2, ← hpsEq, hr1eq, List.append_nil]
      · intro hlt
        rw [hK] at hlt
        omega
    · have hδ3 := fillFrom_eq (extractTitleNgrams title)
        (fillFrom (fillFrom [] hashtags) ((sortedScoredNouns title content).map Prod.fst))
      have hsub3 : List.Sublist
          ((dedupAux (fillFrom (fillFrom [] hashtags)
              ((sortedScoredNouns title content).map Prod.fst))
            (extractTitleNgrams title)).take
            (5 - (fillFrom (fillFrom [] hashtags)
              ((sortedScoredNouns title content).map Prod.fst)).length))
          (extractTitleNgrams title) :=
        (List.take_sublist _ _).trans (dedupAux_sublist _ _)
      have hK : extractSmartKeywords title content hashtags =
          fillFrom (fillFrom (fillFrom [] hashtags)
            ((sortedScoredNouns title content).map Prod.fst)) (extractTitleNgrams title) := by
        simp only [extractSmartKeywords]
        rw [if_neg h1, if_neg h2]
      refine ⟨?_, ?_, ?_, ?_, ?_, ?_⟩
      · rw [hK]; exact fillFrom_length_le _ _ hr2len
      · rw [hK]; exact fillFrom_nodup _ _ hr2nodup
      · rw [hK, hδ3, hδ2, hr1eq, List.append_assoc]; exact List.take_left _ _
      · intro hd5
        exact ⟨_, by rw [hK, hδ3, hδ2, hr1eq, hdseg hd5, List.append_assoc]⟩
      · refine ⟨ps, _, ?_, hpsSub, hpw, hsub3⟩
        rw [hK, hδ3, hδ2, ← hpsEq, hr1eq]
      · intro hlt x hx
        rw [hK] at hlt ⊢
        have hr2lt : (fillFrom (fillFrom [] hashtags)
            ((sortedScoredNouns title content).map Prod.fst)).length < 5 := by
          rw [hδ3, List.length_append] at hlt
          omega
        have hr1lt : (fillFrom [] hashtags).length < 5 := by
          rw [hδ2, List.length_append] at hr2lt
          omega
        rcases hx with hx | hx | hx
        · have hx1 : x ∈ fillFrom [] hashtags :=
            fillFrom_complete hashtags [] hr1lt x (Or.inr hx)
          have hx2 : x ∈ fillFrom (fillFrom [] hashtags)
              ((sortedScoredNouns title content).map Prod.fst) := by
            rw [hδ2]
            exact List.mem_append_left _ hx1
          exact fillFrom_complete _ _ hlt x (Or.inl hx2)
        · have hxNW : x ∈ (sortedScoredNouns title content).map Prod.fst :=
            ((List.perm_insertionSort scoreGe _).map Prod.fst).mem_iff.mpr hx
          have hx2 : x ∈ fillFrom (fillFrom [] hashtags)
              ((sortedScoredNouns title content).map Prod.fst) :=
            fillFrom_complete _ _ hr2lt x (Or.inr hxNW)
          exact fillFrom_complete _ _ hlt x (Or.inl hx2)
        · exact fillFrom_complete _ _ hlt x (Or.inr hx)

/-- Witness for `extractSmartKeywords_spec`: with hashtags `a, b, a` and
empty title and content the result is short, so every hashtag is present,
the deduplicated hashtags are a prefix, and the cap holds. -/
theorem extractSmartKeywords_spec_witness :
    (∃ rest, extractSmartKeywords [] [] demoTags = dedupFirst demoTags ++ rest) ∧
    "a".toList ∈ extractSmartKeywords [] [] demoTags :=
  ⟨(extractSmartKeywords_spec [] [] demoTags).2.2.2.1 (by decide),
   (extractSmartKeywords_spec [] [] demoTags).2.2.2.2.2 (by decide) "a".toList
     (Or.inl (by decide))⟩
